import Mathlib

/-!
Verification of the Keraon helper library (`keraon_helpers.py`).

The Python functions are shallowly embedded over the real numbers:
NumPy vectors become functions `Fin d → ℝ`, NumPy float arithmetic becomes
exact real arithmetic, pandas data frames become explicit structures or
cell maps, and `float('inf')` / `-np.inf` sentinels become `Option ℝ`
(`none` playing the role of the infinity the loop starts from, so that the
first real candidate always wins the comparison, exactly as in the code).
-/

open scoped Classical

noncomputable section

namespace Keraon

/-- Vectors of dimension `d` (NumPy 1-D arrays). -/
def Vec (d : ℕ) : Type := Fin d → ℝ

namespace Vec

instance (d : ℕ) : AddCommGroup (Vec d) := Pi.addCommGroup
instance (d : ℕ) : Module ℝ (Vec d) := Pi.module _ _ _
instance (d : ℕ) : Inhabited (Vec d) := ⟨fun _ => 0⟩

instance (d : ℕ) : NoZeroSMulDivisors ℝ (Vec d) := by
  constructor
  intro c x h
  by_cases hc : c = 0
  · exact Or.inl hc
  · refine Or.inr (funext fun i => ?_)
    have hi : c * x i = 0 := congrFun h i
    rcases mul_eq_zero.mp hi with hi | hi
    · exact absurd hi hc
    · exact hi

end Vec

/-- `np.dot(u, v)` for 1-D arrays: the real dot product. -/
def dot {d : ℕ} (u v : Vec d) : ℝ := ∑ i, u i * v i

/-- `np.linalg.norm(v)`: the Euclidean norm. -/
def nrm {d : ℕ} (v : Vec d) : ℝ := Real.sqrt (dot v v)

/-- The mixture mean `tfx * mu_sub + (1 - tfx) * mu_healthy`
(elementwise, as NumPy broadcasts it). -/
def mixMean {d : ℕ} (tfx : ℝ) (muSub muHealthy : Vec d) : Vec d :=
  fun i => tfx * muSub i + (1 - tfx) * muHealthy i

/-- `scipy.stats.multivariate_normal.logpdf(x, mean=mu, cov=np.eye(d))`:
for the identity covariance the log density is
`-(d/2)·log(2π) - (1/2)·‖x - mu‖²` (the covariance determinant is 1). -/
def mvnLogpdfId {d : ℕ} (x mu : Vec d) : ℝ :=
  -((d : ℝ) / 2) * Real.log (2 * Real.pi) - (1 / 2) * ∑ i, (x i - mu i) ^ 2

/-- `calculate_log_likelihoods(tfx, feature_vals, mu_healthy, cov_healthy,
mu_subs, subtypes)`.  For each subtype (in list order) it forms the mixture
mean `tfx * mu_subs[subtypes.index(subtype)] + (1-tfx) * mu_healthy`, then
evaluates the multivariate normal log density of `feature_vals` with
`cov_mixture = np.eye(cov_healthy.shape[0])`, i.e. the identity matrix;
`cov_healthy` contributes only its shape (the type index `d`), never its
entries.  `mu_subs.getD _ default` mirrors Python list indexing at the
in-range indices produced by `subtypes.index`. -/
def calculate_log_likelihoods {d : ℕ} (tfx : ℝ) (feature_vals mu_healthy : Vec d)
    (cov_healthy : Matrix (Fin d) (Fin d) ℝ) (mu_subs : List (Vec d))
    (subtypes : List String) : List ℝ :=
  subtypes.map (fun subtype =>
    mvnLogpdfId feature_vals
      (mixMean tfx (mu_subs.getD (subtypes.indexOf subtype) default) mu_healthy))

/-- The grid `np.arange(0, 1.001, 0.001)`: the 1001 points
`0.000, 0.001, …, 1.000`. -/
def tfxGrid : List ℝ := (List.range 1001).map (fun (k : ℕ) => (k : ℝ) / 1000)

/-- One iteration of the `optimize_tfx` loop: given the scoring function
`g` (the negated sum of exponentiated log likelihoods at a candidate tfx),
the running pair `(best_tfx, best_ll)` is updated when `g t < best_ll`,
where `best_ll = none` models the initial `float('inf')` (every real
compares below it). -/
def tfxStep (g : ℝ → ℝ) (acc : ℝ × Option ℝ) (t : ℝ) : ℝ × Option ℝ :=
  match acc.2 with
  | none => (t, some (g t))
  | some b => if g t < b then (t, some (g t)) else acc

/-- The score computed inside `optimize_tfx` at one candidate:
`-np.sum(np.exp(log_likelihoods))`. -/
def negExpSum {d : ℕ} (tfx : ℝ) (feature_vals mu_healthy : Vec d)
    (cov_healthy : Matrix (Fin d) (Fin d) ℝ) (mu_subs : List (Vec d))
    (subtypes : List String) : ℝ :=
  -(((calculate_log_likelihoods tfx feature_vals mu_healthy cov_healthy mu_subs
      subtypes).map Real.exp).sum)

/-- `optimize_tfx(feature_vals, mu_healthy, cov_healthy, mu_subs, subtypes)`:
grid search over `tfxGrid` minimising the negated likelihood sum, with
strict `<` improvement, starting from `best_tfx = 0`, `best_ll = inf`. -/
def optimize_tfx {d : ℕ} (feature_vals mu_healthy : Vec d)
    (cov_healthy : Matrix (Fin d) (Fin d) ℝ) (mu_subs : List (Vec d))
    (subtypes : List String) : ℝ :=
  (tfxGrid.foldl
    (tfxStep (fun t => negExpSum t feature_vals mu_healthy cov_healthy mu_subs subtypes))
    ((0 : ℝ), (none : Option ℝ))).1

/-! ### Fold lemmas for the `optimize_tfx` loop -/

lemma tfxStep_fst (g : ℝ → ℝ) (acc : ℝ × Option ℝ) (t : ℝ) :
    (tfxStep g acc t).1 = t ∨ (tfxStep g acc t).1 = acc.1 := by
  unfold tfxStep
  rcases acc.2 with _ | b
  · left; rfl
  · by_cases hlt : g t < b
    · left; simp [hlt]
    · right; simp [hlt]

lemma tfxFold_fst_mem (g : ℝ → ℝ) :
    ∀ (l : List ℝ) (acc : ℝ × Option ℝ),
      (l.foldl (tfxStep g) acc).1 = acc.1 ∨ (l.foldl (tfxStep g) acc).1 ∈ l := by
  intro l
  induction l with
  | nil => intro acc; left; rfl
  | cons t l ih =>
    intro acc
    rw [List.foldl_cons]
    rcases ih (tfxStep g acc t) with h | h
    · rcases tfxStep_fst g acc t with hs | hs
      · right; rw [h, hs]; exact List.mem_cons_self t l
      · left; rw [h, hs]
    · right; exact List.mem_cons_of_mem _ h

lemma tfxFold_keep (g : ℝ → ℝ) :
    ∀ (l : List ℝ) (t₀ m : ℝ), (∀ t ∈ l, ¬ g t < m) →
      l.foldl (tfxStep g) (t₀, some m) = (t₀, some m) := by
  intro l
  induction l with
  | nil => intro t₀ m _; rfl
  | cons t l ih =>
    intro t₀ m h
    rw [List.foldl_cons]
    have hstep : tfxStep g (t₀, some m) t = (t₀, some m) := by
      unfold tfxStep
      simp only
      rw [if_neg (h t (List.mem_cons_self t l))]
    rw [hstep]
    exact ih t₀ m (fun x hx => h x (List.mem_cons_of_mem _ hx))

/-- C1: `calculate_log_likelihoods` evaluates each subtype's multivariate
normal log density with an identity covariance whose dimension is the shape
of `cov_healthy`; two calls that differ only in the entries of
`cov_healthy` (same shape `d × d`) return identical log-likelihood lists —
the supplied covariance values never influence the result. -/
theorem calculate_log_likelihoods_ignores_cov {d : ℕ} (tfx : ℝ)
    (feature_vals mu_healthy : Vec d) (cov1 cov2 : Matrix (Fin d) (Fin d) ℝ)
    (mu_subs : List (Vec d)) (subtypes : List String) :
    calculate_log_likelihoods tfx feature_vals mu_healthy cov1 mu_subs subtypes =
      calculate_log_likelihoods tfx feature_vals mu_healthy cov2 mu_subs subtypes := rfl

/-- C2: for every feature vector and reference models with a non-empty
subtype list, `optimize_tfx` returns a grid point of
`{0.000, 0.001, …, 1.000}` (1001 points), hence a value in `[0, 1]`. -/
theorem optimize_tfx_mem_grid {d : ℕ} (feature_vals mu_healthy : Vec d)
    (cov_healthy : Matrix (Fin d) (Fin d) ℝ) (mu_subs : List (Vec d))
    (subtypes : List String) (hss : subtypes ≠ []) :
    optimize_tfx feature_vals mu_healthy cov_healthy mu_subs subtypes ∈ tfxGrid ∧
    tfxGrid.length = 1001 ∧
    0 ≤ optimize_tfx feature_vals mu_healthy cov_healthy mu_subs subtypes ∧
    optimize_tfx feature_vals mu_healthy cov_healthy mu_subs subtypes ≤ 1 := by
  have h0 : (0 : ℝ) ∈ tfxGrid := by
    unfold tfxGrid
    exact List.mem_map.mpr ⟨0, by simp, by norm_num⟩
  have hmem : optimize_tfx feature_vals mu_healthy cov_healthy mu_subs subtypes ∈ tfxGrid := by
    unfold optimize_tfx
    rcases tfxFold_fst_mem
        (fun t => negExpSum t feature_vals mu_healthy cov_healthy mu_subs subtypes)
        tfxGrid ((0 : ℝ), (none : Option ℝ)) with h | h
    · rw [h]; exact h0
    · exact h
  refine ⟨hmem, by rw [tfxGrid, List.length_map, List.length_range], ?_, ?_⟩
  · rcases List.mem_map.mp hmem with ⟨k, _, hk⟩
    rw [← hk]
    exact div_nonneg (Nat.cast_nonneg k) (by norm_num)
  · rcases List.mem_map.mp hmem with ⟨k, hkmem, hk⟩
    rw [← hk]
    have hk1 : k ≤ 1000 := by
      have := List.mem_range.mp hkmem
      omega
    rw [div_le_one (by norm_num)]
    exact_mod_cast hk1

/-- Instantiation of the C2 theorem at a concrete input (dimension 1,
zero feature vector, one subtype). -/
theorem optimize_tfx_mem_grid_witness :
    (["A"] ≠ ([] : List String)) ∧
    (optimize_tfx (d := 1) (fun _ => 0) (fun _ => 0) 0 [fun _ => 1] ["A"] ∈ tfxGrid ∧
     tfxGrid.length = 1001 ∧
     0 ≤ optimize_tfx (d := 1) (fun _ => 0) (fun _ => 0) 0 [fun _ => 1] ["A"] ∧
     optimize_tfx (d := 1) (fun _ => 0) (fun _ => 0) 0 [fun _ => 1] ["A"] ≤ 1) :=
  ⟨by simp, optimize_tfx_mem_grid _ _ _ _ _ (by simp)⟩

lemma negExpSum_zero_le {d : ℕ} (feature_vals mu_healthy : Vec d)
    (cov_healthy : Matrix (Fin d) (Fin d) ℝ) (mu_subs : List (Vec d))
    (subtypes : List String) (hfv : feature_vals = mu_healthy) (t : ℝ) :
    negExpSum 0 feature_vals mu_healthy cov_healthy mu_subs subtypes ≤
      negExpSum t feature_vals mu_healthy cov_healthy mu_subs subtypes := by
  unfold negExpSum calculate_log_likelihoods
  rw [List.map_map, List.map_map]
  apply neg_le_neg
  apply List.sum_le_sum
  intro s _
  simp only [Function.comp]
  apply Real.exp_le_exp.mpr
  have h0 : mixMean 0 (mu_subs.getD (subtypes.indexOf s) default) mu_healthy = mu_healthy := by
    funext i; simp [mixMean]
  rw [h0, hfv]
  unfold mvnLogpdfId
  have h1 : ∑ i, (mu_healthy i - mu_healthy i) ^ 2 = 0 := by simp
  rw [h1]
  have h2 : (0 : ℝ) ≤ ∑ i,
      (mu_healthy i -
        mixMean t (mu_subs.getD (subtypes.indexOf s) default) mu_healthy i) ^ 2 :=
    Finset.sum_nonneg (fun i _ => sq_nonneg _)
  linarith

/-- C3: when the feature vector equals the healthy mean, `optimize_tfx`
returns the grid point `0`: the candidate `tfx = 0` attains the minimal
negated likelihood sum, and the strict `<` rule keeps the earliest tied
candidate, so no later grid point displaces it. -/
theorem optimize_tfx_healthy_eq_zero {d : ℕ} (feature_vals mu_healthy : Vec d)
    (cov_healthy : Matrix (Fin d) (Fin d) ℝ) (mu_subs : List (Vec d))
    (subtypes : List String) (hfv : feature_vals = mu_healthy) :
    optimize_tfx feature_vals mu_healthy cov_healthy mu_subs subtypes = 0 := by
  unfold optimize_tfx
  set g : ℝ → ℝ :=
    fun t => negExpSum t feature_vals mu_healthy cov_healthy mu_subs subtypes with hg
  have hkey : ∀ t, g 0 ≤ g t := fun t =>
    negExpSum_zero_le feature_vals mu_healthy cov_healthy mu_subs subtypes hfv t
  have hcons : tfxGrid =
      (0 : ℝ) :: (((List.range 1000).map Nat.succ).map (fun (k : ℕ) => (k : ℝ) / 1000)) := by
    unfold tfxGrid
    rw [show (1001 : ℕ) = 1000 + 1 from rfl, List.range_succ_eq_map, List.map_cons,
      List.map_map]
    norm_num [List.map_map]
  rw [hcons, List.foldl_cons]
  have hstep : tfxStep g ((0 : ℝ), (none : Option ℝ)) 0 = (0, some (g 0)) := rfl
  rw [hstep, tfxFold_keep g _ 0 (g 0) (fun t _ => not_lt.mpr (hkey t))]

/-- Instantiation of the C3 theorem at a concrete input: the zero feature
vector against a zero healthy mean yields tfx `0`. -/
theorem optimize_tfx_healthy_eq_zero_witness :
    (((fun _ => 0) : Vec 1) = fun _ => 0) ∧
    optimize_tfx (d := 1) (fun _ => 0) (fun _ => 0) 0 [fun _ => 1] ["A"] = 0 :=
  ⟨rfl, optimize_tfx_healthy_eq_zero _ _ _ _ _ rfl⟩

/-! ### `update_predictions` -/

/-- A cell of the predictions data frame: numeric value or label. -/
inductive Cell where
  | num : ℝ → Cell
  | str : String → Cell
  deriving DecidableEq

/-- The predictions table, as a map from row label and column name to the
cell `predictions.loc[row, col]`. -/
def Frame : Type := String → String → Cell

/-- The assignment `predictions.loc[r, c] = v`. -/
def setCell (df : Frame) (r c : String) (v : Cell) : Frame :=
  fun r' c' => if r' = r ∧ c' = c then v else df r' c'

/-- `scipy.special.softmax`: `exp(x_i) / Σ_j exp(x_j)` (the max-shift the
library applies for numerical stability cancels in exact arithmetic). -/
def softmax (l : List ℝ) : List ℝ :=
  l.map (fun x => Real.exp x / (l.map Real.exp).sum)

/-- `np.round(x, 4)` in exact arithmetic: round `x·10⁴` to an integer and
divide back.  (NumPy breaks `.5` ties to even, Mathlib's `round` breaks
them upward; no claim below depends on the tie direction.) -/
def round4 (x : ℝ) : ℝ := (round (x * 10000) : ℤ) / 10000

/-- The rounded softmax weight read by the prediction loop:
`np.round(softmax(log_likelihoods)[subtypes.index(subtype)], 4)`. -/
def predictionWeight (log_likelihoods : List ℝ) (subtypes : List String)
    (subtype : String) : ℝ :=
  round4 ((softmax log_likelihoods).getD (subtypes.indexOf subtype) 0)

/-- The body of the `for subtype in subtypes` loop of `update_predictions`:
the state carries the running `(max_weight, max_subtype)` pair and the data
frame being written; the weight cell is written unconditionally, the
running pair is updated on the strict comparison `weight > max_weight`. -/
def predStep (sample : String) (w : String → ℝ)
    (acc : (ℝ × String) × Frame) (subtype : String) : (ℝ × String) × Frame :=
  let weight := w subtype
  let df := setCell acc.2 sample subtype (Cell.num weight)
  (if acc.1.1 < weight then (weight, subtype) else acc.1, df)

/-- `update_predictions(predictions, sample, tfx, tfx_shifted,
log_likelihoods, subtypes)`: writes `TFX`, `TFX_shifted`, each subtype's
rounded softmax weight, and the winning subtype (running max with strict
`>`, initialised at `0` with the sentinel `'NoSolution'`) into the row
`sample` of the predictions frame. -/
def update_predictions (predictions : Frame) (sample : String)
    (tfx tfx_shifted : ℝ) (log_likelihoods : List ℝ)
    (subtypes : List String) : Frame :=
  let w := predictionWeight log_likelihoods subtypes
  let p1 := setCell predictions sample "TFX" (Cell.num tfx)
  let p2 := setCell p1 sample "TFX_shifted" (Cell.num tfx_shifted)
  let res := subtypes.foldl (predStep sample w) (((0 : ℝ), "NoSolution"), p2)
  setCell res.2 sample "Prediction" (Cell.str res.1.2)

/-- The `(max_weight, max_subtype)` component of the prediction loop. -/
def wStep (w : String → ℝ) (acc : ℝ × String) (subtype : String) : ℝ × String :=
  if acc.1 < w subtype then (w subtype, subtype) else acc

lemma predFold_fst (sample : String) (w : String → ℝ) :
    ∀ (l : List String) (p : ℝ × String) (df : Frame),
      (l.foldl (predStep sample w) (p, df)).1 = l.foldl (wStep w) p := by
  intro l
  induction l with
  | nil => intro p df; rfl
  | cons st l ih =>
    intro p df
    rw [List.foldl_cons, List.foldl_cons]
    have hstep : predStep sample w (p, df) st =
        (wStep w p st, setCell df sample st (Cell.num (w st))) := by
      unfold predStep wStep
      by_cases h : p.1 < w st <;> simp [h]
    rw [hstep]
    exact ih _ _

lemma predFold_frame_row (sample : String) (w : String → ℝ) :
    ∀ (l : List String) (p : ℝ × String) (df : Frame) (r c : String),
      r ≠ sample → (l.foldl (predStep sample w) (p, df)).2 r c = df r c := by
  intro l
  induction l with
  | nil => intro p df r c _; rfl
  | cons st l ih =>
    intro p df r c hr
    rw [List.foldl_cons]
    have hstep : predStep sample w (p, df) st =
        (wStep w p st, setCell df sample st (Cell.num (w st))) := by
      unfold predStep wStep
      by_cases h : p.1 < w st <;> simp [h]
    rw [hstep, ih _ _ r c hr]
    unfold setCell
    rw [if_neg (by intro h; exact hr h.1)]

lemma predFold_frame_col (sample : String) (w : String → ℝ) :
    ∀ (l : List String) (p : ℝ × String) (df : Frame) (c : String),
      c ∉ l → (l.foldl (predStep sample w) (p, df)).2 sample c = df sample c := by
  intro l
  induction l with
  | nil => intro p df c _; rfl
  | cons st l ih =>
    intro p df c hc
    rw [List.foldl_cons]
    have hstep : predStep sample w (p, df) st =
        (wStep w p st, setCell df sample st (Cell.num (w st))) := by
      unfold predStep wStep
      by_cases h : p.1 < w st <;> simp [h]
    rw [hstep, ih _ _ c (fun h => hc (List.mem_cons_of_mem _ h))]
    unfold setCell
    rw [if_neg (by intro h; exact hc (h.2 ▸ List.mem_cons_self st l))]

lemma wFold_spec (w : String → ℝ) :
    ∀ (l : List String) (mw : ℝ) (ms : String),
      (∀ st ∈ l, w st ≤ (l.foldl (wStep w) (mw, ms)).1) ∧
      mw ≤ (l.foldl (wStep w) (mw, ms)).1 ∧
      (l.foldl (wStep w) (mw, ms) = (mw, ms) ∨
        (mw < (l.foldl (wStep w) (mw, ms)).1 ∧
         w (l.foldl (wStep w) (mw, ms)).2 = (l.foldl (wStep w) (mw, ms)).1 ∧
         ∃ l₁ l₂, l = l₁ ++ (l.foldl (wStep w) (mw, ms)).2 :: l₂ ∧
           ∀ st ∈ l₁, w st < (l.foldl (wStep w) (mw, ms)).1)) := by
  intro l
  induction l with
  | nil =>
    intro mw ms
    exact ⟨by simp, le_refl _, Or.inl rfl⟩
  | cons st l ih =>
    intro mw ms
    rw [List.foldl_cons]
    by_cases hlt : mw < w st
    · have hstep : wStep w (mw, ms) st = (w st, st) := by unfold wStep; simp [hlt]
      rw [hstep]
      obtain ⟨ha, hb, hc⟩ := ih (w st) st
      refine ⟨?_, le_of_lt (lt_of_lt_of_le hlt hb), ?_⟩
      · intro x hx
        rcases List.mem_cons.mp hx with hx | hx
        · rw [hx]; exact hb
        · exact ha x hx
      · right
        rcases hc with hc | ⟨h1, h2, l₁, l₂, hd, hp⟩
        · rw [hc]
          exact ⟨hlt, rfl, [], l, rfl, by simp⟩
        · refine ⟨lt_trans hlt h1, h2, st :: l₁, l₂, by rw [List.cons_append, ← hd], ?_⟩
          intro x hx
          rcases List.mem_cons.mp hx with hx | hx
          · rw [hx]; exact h1
          · exact hp x hx
    · have hstep : wStep w (mw, ms) st = (mw, ms) := by unfold wStep; simp [hlt]
      rw [hstep]
      obtain ⟨ha, hb, hc⟩ := ih mw ms
      refine ⟨?_, hb, ?_⟩
      · intro x hx
        rcases List.mem_cons.mp hx with hx | hx
        · rw [hx]; exact le_trans (not_lt.mp hlt) hb
        · exact ha x hx
      · rcases hc with hc | ⟨h1, h2, l₁, l₂, hd, hp⟩
        · exact Or.inl hc
        · refine Or.inr ⟨h1, h2, st :: l₁, l₂, by rw [List.cons_append, ← hd], ?_⟩
          intro x hx
          rcases List.mem_cons.mp hx with hx | hx
          · rw [hx]; exact lt_of_le_of_lt (not_lt.mp hlt) h1
          · exact hp x hx

lemma indexOf_append_of_not_mem {a : String} :
    ∀ (l₁ l₂ : List String), a ∉ l₁ →
      (l₁ ++ l₂).indexOf a = l₁.length + l₂.indexOf a := by
  intro l₁
  induction l₁ with
  | nil => intro l₂ _; simp
  | cons b l₁ ih =>
    intro l₂ hmem
    have hb : a ≠ b := fun h => hmem (h ▸ List.mem_cons_self b l₁)
    have hl : a ∉ l₁ := fun h => hmem (List.mem_cons_of_mem _ h)
    rw [List.cons_append, List.indexOf_cons_ne _ (Ne.symm hb), ih l₂ hl, List.length_cons]
    omega

lemma setCell_eq (df : Frame) (r c : String) (v : Cell) : setCell df r c v r c = v := by
  unfold setCell
  rw [if_pos ⟨rfl, rfl⟩]

lemma setCell_ne_row (df : Frame) (r c : String) (v : Cell) (r' c' : String)
    (h : r' ≠ r) : setCell df r c v r' c' = df r' c' := by
  unfold setCell
  rw [if_neg (fun hh => h hh.1)]

lemma setCell_ne_col (df : Frame) (r c : String) (v : Cell) (r' c' : String)
    (h : c' ≠ c) : setCell df r c v r' c' = df r' c' := by
  unfold setCell
  rw [if_neg (fun hh => h hh.2)]

lemma update_predictions_prediction_cell (predictions : Frame) (sample : String)
    (tfx tfx_shifted : ℝ) (log_likelihoods : List ℝ) (subtypes : List String) :
    update_predictions predictions sample tfx tfx_shifted log_likelihoods subtypes
        sample "Prediction" =
      Cell.str ((subtypes.foldl (wStep (predictionWeight log_likelihoods subtypes))
        ((0 : ℝ), "NoSolution")).2) := by
  unfold update_predictions
  rw [setCell_eq, predFold_fst]

/-- C4: the recorded top subtype is the one whose rounded softmax weight is
strictly greatest (running max with `>`, earliest subtype winning ties),
and the sentinel `'NoSolution'` is recorded exactly when no subtype's
rounded weight strictly exceeds the running max initialised at `0`. -/
theorem update_predictions_top_subtype (predictions : Frame) (sample : String)
    (tfx tfx_shifted : ℝ) (log_likelihoods : List ℝ) (subtypes : List String)
    (hno : "NoSolution" ∉ subtypes) :
    (update_predictions predictions sample tfx tfx_shifted log_likelihoods subtypes
        sample "Prediction" = Cell.str "NoSolution" ↔
      ∀ st ∈ subtypes, predictionWeight log_likelihoods subtypes st ≤ 0) ∧
    (∀ top, update_predictions predictions sample tfx tfx_shifted log_likelihoods subtypes
        sample "Prediction" = Cell.str top → top ≠ "NoSolution" →
      top ∈ subtypes ∧ 0 < predictionWeight log_likelihoods subtypes top ∧
      (∀ st ∈ subtypes, predictionWeight log_likelihoods subtypes st ≤
        predictionWeight log_likelihoods subtypes top) ∧
      (∀ st ∈ subtypes, predictionWeight log_likelihoods subtypes st =
        predictionWeight log_likelihoods subtypes top →
        subtypes.indexOf top ≤ subtypes.indexOf st)) := by
  have hcell := update_predictions_prediction_cell predictions sample tfx tfx_shifted
    log_likelihoods subtypes
  obtain ⟨ha, hb, hc⟩ := wFold_spec (predictionWeight log_likelihoods subtypes)
    subtypes 0 "NoSolution"
  set w := predictionWeight log_likelihoods subtypes with hw
  set r := subtypes.foldl (wStep w) ((0 : ℝ), "NoSolution") with hr
  constructor
  · constructor
    · intro h
      rw [hcell] at h
      injection h with hms
      rcases hc with hc | ⟨_, _, l₁, l₂, hd, _⟩
      · intro st hst
        have hle := ha st hst
        rw [hc] at hle
        exact hle
      · exfalso
        apply hno
        rw [← hms, hd]
        exact List.mem_append_right _ (List.mem_cons_self _ _)
    · intro h
      rw [hcell]
      rcases hc with hc | ⟨h1, h2, l₁, l₂, hd, _⟩
      · rw [hc]
      · exfalso
        have hm : r.2 ∈ subtypes := by
          rw [hd]; exact List.mem_append_right _ (List.mem_cons_self _ _)
        have hle := h r.2 hm
        rw [h2] at hle
        linarith
  · intro top htop hne
    rw [hcell] at htop
    injection htop with hms
    rcases hc with hc | ⟨h1, h2, l₁, l₂, hd, hp⟩
    · exfalso
      apply hne
      rw [← hms, hc]
    · have hmem : top ∈ subtypes := by
        rw [← hms, hd]
        exact List.mem_append_right _ (List.mem_cons_self _ _)
      have htopval : w top = r.1 := by rw [← hms]; exact h2
      refine ⟨hmem, by rw [htopval]; exact h1, ?_, ?_⟩
      · intro st hst
        rw [htopval]
        exact ha st hst
      · intro st hst htie
        have htop_not : top ∉ l₁ := by
          intro hx
          have := hp top hx
          rw [htopval] at this
          exact lt_irrefl _ this
        have hst_not : st ∉ l₁ := by
          intro hx
          have := hp st hx
          rw [htie, htopval] at this
          exact lt_irrefl _ this
        rw [hd, hms, indexOf_append_of_not_mem l₁ _ htop_not,
          indexOf_append_of_not_mem l₁ _ hst_not, List.indexOf_cons_self]
        omega

/-- Instantiation of the C4 theorem at a concrete input (one subtype,
one log likelihood). -/
theorem update_predictions_top_subtype_witness :
    ("NoSolution" ∉ ["A"]) ∧
    ((update_predictions (fun _ _ => Cell.num 0) "s1" 0 0 [0] ["A"]
        "s1" "Prediction" = Cell.str "NoSolution" ↔
      ∀ st ∈ ["A"], predictionWeight [0] ["A"] st ≤ 0) ∧
    (∀ top, update_predictions (fun _ _ => Cell.num 0) "s1" 0 0 [0] ["A"]
        "s1" "Prediction" = Cell.str top → top ≠ "NoSolution" →
      top ∈ ["A"] ∧ 0 < predictionWeight [0] ["A"] top ∧
      (∀ st ∈ ["A"], predictionWeight [0] ["A"] st ≤ predictionWeight [0] ["A"] top) ∧
      (∀ st ∈ ["A"], predictionWeight [0] ["A"] st = predictionWeight [0] ["A"] top →
        List.indexOf top ["A"] ≤ List.indexOf st ["A"]))) :=
  ⟨by decide, update_predictions_top_subtype _ _ _ _ _ _ (by decide)⟩

/-- C10: `update_predictions` modifies only the row indexed by `sample`
(writing its `TFX`, `TFX_shifted`, per-subtype weight and `Prediction`
cells); every other row — and, within the row, every cell outside those
written columns — is left unchanged. -/
theorem update_predictions_frame_only_sample (predictions : Frame) (sample : String)
    (tfx tfx_shifted : ℝ) (log_likelihoods : List ℝ) (subtypes : List String) :
    (∀ rw, rw ≠ sample → ∀ c,
      update_predictions predictions sample tfx tfx_shifted log_likelihoods subtypes rw c =
        predictions rw c) ∧
    (∀ c, c ≠ "TFX" → c ≠ "TFX_shifted" → c ≠ "Prediction" → c ∉ subtypes →
      update_predictions predictions sample tfx tfx_shifted log_likelihoods subtypes
        sample c = predictions sample c) := by
  constructor
  · intro rw' hrw c
    unfold update_predictions
    rw [setCell_ne_row _ _ _ _ _ _ hrw, predFold_frame_row _ _ _ _ _ _ _ hrw,
      setCell_ne_row _ _ _ _ _ _ hrw, setCell_ne_row _ _ _ _ _ _ hrw]
  · intro c hc1 hc2 hc3 hc4
    unfold update_predictions
    rw [setCell_ne_col _ _ _ _ _ _ hc3, predFold_frame_col _ _ _ _ _ _ hc4,
      setCell_ne_col _ _ _ _ _ _ hc2, setCell_ne_col _ _ _ _ _ _ hc1]

/-- Instantiation of the C10 theorem at a concrete input: a row other than
the written sample keeps its cell, as does an untouched column of the
sample row. -/
theorem update_predictions_frame_only_sample_witness :
    ("s2" ≠ "s1") ∧ ("X" ≠ "TFX") ∧
    update_predictions (fun _ _ => Cell.num 7) "s1" 0 0 [0] ["A"] "s2" "TFX" =
      Cell.num 7 ∧
    update_predictions (fun _ _ => Cell.num 7) "s1" 0 0 [0] ["A"] "s1" "X" =
      Cell.num 7 :=
  ⟨by decide, by decide,
    (update_predictions_frame_only_sample (fun _ _ => Cell.num 7) "s1" 0 0 [0] ["A"]).1
      "s2" (by decide) "TFX",
    (update_predictions_frame_only_sample (fun _ _ => Cell.num 7) "s1" 0 0 [0] ["A"]).2
      "X" (by decide) (by decide) (by decide) (by decide)⟩

/-! ### `norm_exp` -/

/-- A pandas data frame for the filtering routines: a column list (with the
reserved `Subtype` label column) and rows carrying the subtype label and
the feature values by column name. -/
structure DF where
  cols : List String
  rows : List (String × (String → ℝ))

/-- pandas `Series.unique`: the values in order of first appearance. -/
def uniqueKeepFirst (l : List String) : List String :=
  l.foldl (fun acc a => if a ∈ acc then acc else acc ++ [a]) []

/-- `df[df['Subtype'] == phenotype]`: the rows of one subtype partition. -/
def phenoRows (df : DF) (pheno : String) : List (String × (String → ℝ)) :=
  df.rows.filter (fun row => row.1 = pheno)

/-- One entry of the `df_lpq` p-value table: `1.0` when the partition has
fewer than 3 rows (the Shapiro-Wilk test is skipped), otherwise the
Shapiro p-value of the partition's `roi` column.  `sh` abstracts
`scipy.stats.shapiro(...).pvalue`, an external collaborator. -/
def pvalEntry (df : DF) (sh : List ℝ → ℝ) (roi pheno : String) : ℝ :=
  if (phenoRows df pheno).length < 3 then 1
  else sh ((phenoRows df pheno).map (fun row => row.2 roi))

/-- The feature columns examined by `norm_exp`: the input columns with
`Subtype` dropped (`pheno_dfs[0].columns`). -/
def featureCols (df : DF) : List String := df.cols.filter (fun c => c ≠ "Subtype")

/-- The index of the filtered p-value table
`df_lpq = df_lpq[(df_lpq > thresh).all(axis=1)]`: the features whose
p-value strictly exceeds `thresh` in every phenotype column. -/
def retainedFeatures (df : DF) (sh : List ℝ → ℝ) (thresh : ℝ) : List String :=
  (featureCols df).filter (fun roi =>
    ∀ pheno ∈ uniqueKeepFirst (df.rows.map Prod.fst), thresh < pvalEntry df sh roi pheno)

/-- `norm_exp(df, direct, thresh)`: returns the input frame restricted to
`common_columns = df.columns.intersection(df_lpq.index)` together with the
p-value table.  Writing `shapiros.tsv` and appending the aggregate
`p-adjusted` column belong to the excluded I/O layer; the returned table's
p-value entries are the `pvalEntry` map. -/
def norm_exp (df : DF) (sh : List ℝ → ℝ) (thresh : ℝ) : DF × (String → String → ℝ) :=
  (⟨df.cols.filter (fun c => c ∈ retainedFeatures df sh thresh), df.rows⟩,
   fun roi pheno => pvalEntry df sh roi pheno)

lemma mem_uniqueKeepFirst_aux (l : List String) :
    ∀ (acc : List String) (x : String),
      x ∈ l.foldl (fun acc a => if a ∈ acc then acc else acc ++ [a]) acc ↔
        x ∈ acc ∨ x ∈ l := by
  induction l with
  | nil => intro acc x; simp
  | cons b l ih =>
    intro acc x
    rw [List.foldl_cons]
    by_cases hb : b ∈ acc
    · rw [if_pos hb, ih acc x]
      constructor
      · rintro (h | h)
        · exact Or.inl h
        · exact Or.inr (List.mem_cons_of_mem _ h)
      · rintro (h | h)
        · exact Or.inl h
        · rcases List.mem_cons.mp h with h | h
          · exact Or.inl (h ▸ hb)
          · exact Or.inr h
    · rw [if_neg hb, ih (acc ++ [b]) x]
      simp only [List.mem_append, List.mem_singleton, List.mem_cons]
      tauto

lemma mem_uniqueKeepFirst (x : String) (l : List String) :
    x ∈ uniqueKeepFirst l ↔ x ∈ l := by
  unfold uniqueKeepFirst
  rw [mem_uniqueKeepFirst_aux l [] x]
  simp

/-- C8: the normality filter retains exactly the feature columns for which
every subtype partition's p-value strictly exceeds the threshold, a
partition with fewer than 3 rows having `1.0` substituted for its p-value
instead of running the test. -/
theorem norm_exp_retains_iff (df : DF) (sh : List ℝ → ℝ) (thresh : ℝ) (roi : String) :
    roi ∈ (norm_exp df sh thresh).1.cols ↔
      (roi ∈ df.cols ∧ roi ≠ "Subtype" ∧
        ∀ pheno ∈ df.rows.map Prod.fst,
          thresh < (if (df.rows.filter (fun row => row.1 = pheno)).length < 3 then 1
            else sh ((df.rows.filter (fun row => row.1 = pheno)).map
              (fun row => row.2 roi)))) := by
  simp only [norm_exp, retainedFeatures, featureCols, pvalEntry, phenoRows,
    List.mem_filter, decide_eq_true_eq, mem_uniqueKeepFirst]
  tauto

/-- C9: the first table returned by `norm_exp` holds exactly the columns of
the input that survive the p-value filter (built after dropping
`Subtype`), so the `Subtype` label column is absent from it. -/
theorem norm_exp_cols_no_subtype (df : DF) (sh : List ℝ → ℝ) (thresh : ℝ) :
    (norm_exp df sh thresh).1.cols =
      df.cols.filter (fun c => c ∈ retainedFeatures df sh thresh) ∧
    "Subtype" ∉ (norm_exp df sh thresh).1.cols := by
  refine ⟨rfl, ?_⟩
  intro h
  simp only [norm_exp, retainedFeatures, featureCols, List.mem_filter,
    decide_eq_true_eq] at h
  exact h.2.1.2 rfl

/-! ### `greedy_maximize` (the search loop of `maximal_simplex_volume`)

The search is parametric in the objective `fun`, exactly as
`greedy_maximize(fun, n, n_min)` is in the source; masks
(`np.zeros(n, dtype=bool)` with bits set) are `Finset (Fin n)`, and the
`-np.inf` the loop starts from is modelled by `Option ℝ` with `none`
below every real, as for `optimize_tfx`. -/

/-- `best_value` comparison against `-np.inf`-or-a-real: `oLt bv x` holds
when `x > bv`, with `none` playing `-np.inf`. -/
def oLt (bv : Option ℝ) (x : ℝ) : Prop :=
  match bv with
  | none => True
  | some y => y < x

/-- `itertools.combinations(range(n), k)` turned into bit masks: all
`k`-element subsets of `Fin n`. -/
def combosList (n k : ℕ) : List (Finset (Fin n)) :=
  (List.sublistsLen k (List.finRange n)).map List.toFinset

/-- One candidate update of the exhaustive phase: keep `s` when its value
strictly beats the running best. -/
def phase1Step {n : ℕ} (f : Finset (Fin n) → ℝ)
    (acc : Finset (Fin n) × Option ℝ) (s : Finset (Fin n)) :
    Finset (Fin n) × Option ℝ :=
  if oLt acc.2 (f s) then (s, some (f s)) else acc

/-- The exhaustive phase of `greedy_maximize`: evaluate all masks with `k`
bits set, tracking the strictly best `(best_mask, best_value)`, starting
from the all-zero mask and `-np.inf`. -/
def phase1 {n : ℕ} (f : Finset (Fin n) → ℝ) (k : ℕ) : Finset (Fin n) × Option ℝ :=
  (combosList n k).foldl (phase1Step f) (∅, none)

/-- One candidate bit flip of the greedy phase: try `new_mask = m ∪ {i}`
and keep it when its value strictly beats the running best. -/
def growStep {n : ℕ} (f : Finset (Fin n) → ℝ) (m : Finset (Fin n))
    (acc : Finset (Fin n) × Option ℝ) (i : Fin n) : Finset (Fin n) × Option ℝ :=
  if oLt acc.2 (f (insert i m)) then (insert i m, some (f (insert i m))) else acc

/-- One iteration of the greedy `while True` loop: try flipping every
currently-unset bit, keeping the single best strictly-improving flip
(`best_new_mask`, `best_new_value`), starting from the incoming
`(best_mask, best_value)`. -/
def addStep {n : ℕ} (f : Finset (Fin n) → ℝ) (m : Finset (Fin n)) (bv : Option ℝ) :
    Finset (Fin n) × Option ℝ :=
  ((List.finRange n).filter (fun i => i ∉ m)).foldl (growStep f m) (m, bv)

lemma oLt_trans {bv : Option ℝ} {x y : ℝ} (h : oLt bv x) (hxy : x < y) : oLt bv y := by
  cases bv with
  | none => trivial
  | some b => exact lt_trans h hxy

lemma oLt_ne {bv : Option ℝ} {x : ℝ} (h : oLt bv x) : some x ≠ bv := by
  cases bv with
  | none => simp
  | some b =>
    intro hc
    rw [Option.some_inj] at hc
    rw [hc] at h
    exact lt_irrefl b h

lemma growFold_inv {n : ℕ} (f : Finset (Fin n) → ℝ) (m : Finset (Fin n)) :
    ∀ (l : List (Fin n)) (acc : Finset (Fin n) × Option ℝ),
      l.foldl (growStep f m) acc = acc ∨
      ∃ i ∈ l, ∃ v, l.foldl (growStep f m) acc = (insert i m, some v) ∧ oLt acc.2 v := by
  intro l
  induction l with
  | nil => intro acc; exact Or.inl rfl
  | cons j l ih =>
    intro acc
    rw [List.foldl_cons]
    by_cases hj : oLt acc.2 (f (insert j m))
    · have hstep : growStep f m acc j = (insert j m, some (f (insert j m))) := by
        unfold growStep; rw [if_pos hj]
      rw [hstep]
      rcases ih (insert j m, some (f (insert j m))) with h | ⟨i, hi, v, heq, hov⟩
      · exact Or.inr ⟨j, List.mem_cons_self _ _, f (insert j m), h, hj⟩
      · exact Or.inr ⟨i, List.mem_cons_of_mem _ hi, v, heq, oLt_trans hj hov⟩
    · have hstep : growStep f m acc j = acc := by
        unfold growStep; rw [if_neg hj]
      rw [hstep]
      rcases ih acc with h | ⟨i, hi, v, heq, hov⟩
      · exact Or.inl h
      · exact Or.inr ⟨i, List.mem_cons_of_mem _ hi, v, heq, hov⟩

lemma growFold_max {n : ℕ} (f : Finset (Fin n) → ℝ) (m : Finset (Fin n)) :
    ∀ (l : List (Fin n)) (acc : Finset (Fin n) × Option ℝ),
      (∀ x, ¬ oLt acc.2 x → ¬ oLt (l.foldl (growStep f m) acc).2 x) ∧
      (∀ j ∈ l, ¬ oLt (l.foldl (growStep f m) acc).2 (f (insert j m))) := by
  intro l
  induction l with
  | nil => intro acc; exact ⟨fun x hx => hx, by simp⟩
  | cons j l ih =>
    intro acc
    rw [List.foldl_cons]
    by_cases hj : oLt acc.2 (f (insert j m))
    · have hstep : growStep f m acc j = (insert j m, some (f (insert j m))) := by
        unfold growStep; rw [if_pos hj]
      rw [hstep]
      obtain ⟨ihmono, ihall⟩ := ih (insert j m, some (f (insert j m)))
      have hmono : ∀ x, ¬ oLt acc.2 x →
          ¬ oLt (some (f (insert j m)) : Option ℝ) x := by
        intro x hx
        cases hacc : acc.2 with
        | none => exact absurd (by rw [hacc] at hx ⊢; exact trivial) hx
        | some y =>
          rw [hacc] at hx hj
          intro hlt
          exact hx (lt_trans hj hlt)
      refine ⟨fun x hx => ihmono x (hmono x hx), ?_⟩
      intro x hx
      rcases List.mem_cons.mp hx with hx | hx
      · rw [hx]
        exact ihmono _ (lt_irrefl _)
      · exact ihall x hx
    · have hstep : growStep f m acc j = acc := by
        unfold growStep; rw [if_neg hj]
      rw [hstep]
      obtain ⟨ihmono, ihall⟩ := ih acc
      refine ⟨ihmono, ?_⟩
      intro x hx
      rcases List.mem_cons.mp hx with hx | hx
      · rw [hx]
        exact ihmono _ hj
      · exact ihall x hx

lemma addStep_cases {n : ℕ} (f : Finset (Fin n) → ℝ) (m : Finset (Fin n))
    (bv : Option ℝ) :
    addStep f m bv = (m, bv) ∨
    ∃ i, i ∉ m ∧ ∃ v, addStep f m bv = (insert i m, some v) ∧ oLt bv v := by
  unfold addStep
  rcases growFold_inv f m ((List.finRange n).filter (fun i => i ∉ m)) (m, bv) with
    h | ⟨i, hi, v, heq, hov⟩
  · exact Or.inl h
  · have him : i ∉ m := by
      have := (List.mem_filter.mp hi).2
      simpa using this
    exact Or.inr ⟨i, him, v, heq, hov⟩

lemma addStep_not_beats {n : ℕ} (f : Finset (Fin n) → ℝ) (m : Finset (Fin n))
    (bv : Option ℝ) (j : Fin n) (hj : j ∉ m) :
    ¬ oLt (addStep f m bv).2 (f (insert j m)) := by
  unfold addStep
  refine (growFold_max f m ((List.finRange n).filter (fun i => i ∉ m)) (m, bv)).2 j ?_
  rw [List.mem_filter]
  exact ⟨List.mem_finRange j, by simpa using hj⟩

/-- The greedy `while True` loop of `greedy_maximize`, instrumented with an
iteration counter (the second component): each round recomputes the best
single-bit improvement via `addStep`, breaks when
`best_new_value == best_value`, and otherwise continues from the grown
mask.  Termination: a non-stopping round inserts one fresh bit, so
`n - m.card` strictly decreases. -/
def greedy_grow {n : ℕ} (f : Finset (Fin n) → ℝ) (m : Finset (Fin n))
    (bv : Option ℝ) : Finset (Fin n) × ℕ :=
  if h : (addStep f m bv).2 = bv then (m, 0)
  else
    (fun r => (r.1, r.2 + 1)) (greedy_grow f (addStep f m bv).1 (addStep f m bv).2)
termination_by n - m.card
decreasing_by
  rcases addStep_cases f m bv with hcase | ⟨i, hi, v, heq, _⟩
  · exact absurd (congrArg Prod.snd hcase) h
  · rw [heq]
    have h1 : (insert i m).card = m.card + 1 := Finset.card_insert_of_not_mem hi
    have h2 : (insert i m).card ≤ n := by
      simpa using Finset.card_le_univ (insert i m)
    simp only
    omega

/-- `greedy_maximize(fun, n, n_min)`: exhaustive phase over all `n_min`-bit
masks followed by the greedy growth loop; returns the final mask. -/
def greedy_maximize {n : ℕ} (f : Finset (Fin n) → ℝ) (k : ℕ) : Finset (Fin n) :=
  (greedy_grow f (phase1 f k).1 (phase1 f k).2).1

lemma greedy_grow_spec {n : ℕ} (f : Finset (Fin n) → ℝ) :
    ∀ (m : Finset (Fin n)) (bv : Option ℝ),
      m ⊆ (greedy_grow f m bv).1 ∧ (greedy_grow f m bv).2 ≤ n - m.card := by
  have H : ∀ (N : ℕ) (m : Finset (Fin n)) (bv : Option ℝ), n - m.card ≤ N →
      m ⊆ (greedy_grow f m bv).1 ∧ (greedy_grow f m bv).2 ≤ n - m.card := by
    intro N
    induction N with
    | zero =>
      intro m bv hN
      rw [greedy_grow]
      rcases addStep_cases f m bv with hcase | ⟨i, hi, v, heq, _⟩
      · rw [dif_pos (congrArg Prod.snd hcase)]
        exact ⟨Finset.Subset.refl m, Nat.zero_le _⟩
      · exfalso
        have h1 : (insert i m).card = m.card + 1 := Finset.card_insert_of_not_mem hi
        have h2 : (insert i m).card ≤ n := by
          simpa using Finset.card_le_univ (insert i m)
        omega
    | succ N ih =>
      intro m bv hN
      rw [greedy_grow]
      by_cases hstop : (addStep f m bv).2 = bv
      · rw [dif_pos hstop]
        exact ⟨Finset.Subset.refl m, Nat.zero_le _⟩
      · rw [dif_neg hstop]
        rcases addStep_cases f m bv with hcase | ⟨i, hi, v, heq, _⟩
        · exact absurd (congrArg Prod.snd hcase) hstop
        · have h1 : (insert i m).card = m.card + 1 := Finset.card_insert_of_not_mem hi
          have h2 : (insert i m).card ≤ n := by
            simpa using Finset.card_le_univ (insert i m)
          have hcard : (addStep f m bv).1.card = m.card + 1 := by rw [heq]; exact h1
          have hrec := ih (addStep f m bv).1 (addStep f m bv).2 (by omega)
          constructor
          · refine Finset.Subset.trans ?_ hrec.1
            rw [heq]
            exact Finset.subset_insert i m
          · have hcount := hrec.2
            simp only
            omega
  intro m bv
  exact H (n - m.card) m bv (le_refl _)

lemma phase1Fold_fst_mem {n : ℕ} (f : Finset (Fin n) → ℝ) :
    ∀ (l : List (Finset (Fin n))) (acc : Finset (Fin n) × Option ℝ),
      (l.foldl (phase1Step f) acc).1 = acc.1 ∨ (l.foldl (phase1Step f) acc).1 ∈ l := by
  intro l
  induction l with
  | nil => intro acc; exact Or.inl rfl
  | cons s l ih =>
    intro acc
    rw [List.foldl_cons]
    have hstep : (phase1Step f acc s).1 = s ∨ (phase1Step f acc s).1 = acc.1 := by
      unfold phase1Step
      by_cases h : oLt acc.2 (f s)
      · left; rw [if_pos h]
      · right; rw [if_neg h]
    rcases ih (phase1Step f acc s) with h | h
    · rcases hstep with hs | hs
      · right; rw [h, hs]; exact List.mem_cons_self _ _
      · left; rw [h, hs]
    · right; exact List.mem_cons_of_mem _ h

lemma combosList_card {n k : ℕ} : ∀ s ∈ combosList n k, s.card = k := by
  intro s hs
  rcases List.mem_map.mp hs with ⟨l', hl', rfl⟩
  obtain ⟨hsub, hlen⟩ := List.mem_sublistsLen.mp hl'
  have hnodup : l'.Nodup := hsub.nodup (List.nodup_finRange n)
  rw [List.toFinset_card_of_nodup hnodup, hlen]

lemma phase1_card {n : ℕ} (f : Finset (Fin n) → ℝ) (k : ℕ) (hk : k ≤ n) :
    (phase1 f k).1.card = k := by
  have hlen : (combosList n k).length = n.choose k := by
    unfold combosList
    rw [List.length_map, List.length_sublistsLen, List.length_finRange]
  have hne : combosList n k ≠ [] := by
    intro h
    rw [h] at hlen
    have := Nat.choose_pos hk
    simp at hlen
    omega
  obtain ⟨c, rest, hcons⟩ := List.exists_cons_of_ne_nil hne
  have hmem : (phase1 f k).1 ∈ combosList n k := by
    unfold phase1
    rw [hcons, List.foldl_cons]
    have hstep : phase1Step f (∅, none) c = (c, some (f c)) := by
      unfold phase1Step
      have hcond : oLt ((∅ : Finset (Fin n)), (none : Option ℝ)).2 (f c) := True.intro
      rw [if_pos hcond]
    rw [hstep]
    rcases phase1Fold_fst_mem f rest (c, some (f c)) with h | h
    · rw [h]; exact List.mem_cons_self _ _
    · exact List.mem_cons_of_mem _ h
  exact combosList_card _ hmem

/-- C6: the greedy growth phase of the Feature Subset Selector terminates:
starting from the best exhaustively-found mask of exactly `k` set bits
(`k = n_subtypes - 1` at the `maximal_simplex_volume` call site), each
iteration either adds exactly one currently-unset feature — the single
addition no unset feature strictly beats — or stops; a feature once added
is never removed, and the loop runs at most `n - k` iterations. -/
theorem greedy_maximize_terminates {n : ℕ} (f : Finset (Fin n) → ℝ) (k : ℕ)
    (hk : k ≤ n) :
    (phase1 f k).1.card = k ∧
    (∀ (m : Finset (Fin n)) (bv : Option ℝ),
      addStep f m bv = (m, bv) ∨ ∃ i, i ∉ m ∧ (addStep f m bv).1 = insert i m) ∧
    (∀ (m : Finset (Fin n)) (bv : Option ℝ) (j : Fin n), j ∉ m →
      ¬ oLt (addStep f m bv).2 (f (insert j m))) ∧
    (∀ (m : Finset (Fin n)) (bv : Option ℝ), m ⊆ (greedy_grow f m bv).1) ∧
    (∀ (m : Finset (Fin n)) (bv : Option ℝ), (greedy_grow f m bv).2 ≤ n - m.card) ∧
    (phase1 f k).1 ⊆ greedy_maximize f k ∧
    (greedy_grow f (phase1 f k).1 (phase1 f k).2).2 ≤ n - k := by
  have hcard := phase1_card f k hk
  refine ⟨hcard, ?_, ?_, ?_, ?_, ?_, ?_⟩
  · intro m bv
    rcases addStep_cases f m bv with h | ⟨i, hi, v, heq, _⟩
    · exact Or.inl h
    · exact Or.inr ⟨i, hi, by rw [heq]⟩
  · exact fun m bv j hj => addStep_not_beats f m bv j hj
  · exact fun m bv => (greedy_grow_spec f m bv).1
  · exact fun m bv => (greedy_grow_spec f m bv).2
  · exact (greedy_grow_spec f (phase1 f k).1 (phase1 f k).2).1
  · have := (greedy_grow_spec f (phase1 f k).1 (phase1 f k).2).2
    rw [hcard] at this
    exact this

/-- Instantiation of the C6 theorem at `n = 2` features, `k = 1` anchor
bit and the cardinality objective. -/
theorem greedy_maximize_terminates_witness :
    (1 : ℕ) ≤ 2 ∧
    ((phase1 (n := 2) (fun s => (s.card : ℝ)) 1).1.card = 1 ∧
    (∀ (m : Finset (Fin 2)) (bv : Option ℝ),
      addStep (fun s => (s.card : ℝ)) m bv = (m, bv) ∨
        ∃ i, i ∉ m ∧ (addStep (fun s => (s.card : ℝ)) m bv).1 = insert i m) ∧
    (∀ (m : Finset (Fin 2)) (bv : Option ℝ) (j : Fin 2), j ∉ m →
      ¬ oLt (addStep (fun s => (s.card : ℝ)) m bv).2 ((insert j m).card : ℝ)) ∧
    (∀ (m : Finset (Fin 2)) (bv : Option ℝ),
      m ⊆ (greedy_grow (fun s => (s.card : ℝ)) m bv).1) ∧
    (∀ (m : Finset (Fin 2)) (bv : Option ℝ),
      (greedy_grow (fun s => (s.card : ℝ)) m bv).2 ≤ 2 - m.card) ∧
    (phase1 (n := 2) (fun s => (s.card : ℝ)) 1).1 ⊆
      greedy_maximize (fun s => (s.card : ℝ)) 1 ∧
    (greedy_grow (fun s => (s.card : ℝ)) (phase1 (n := 2) (fun s => (s.card : ℝ)) 1).1
      (phase1 (n := 2) (fun s => (s.card : ℝ)) 1).2).2 ≤ 2 - 1) :=
  ⟨by decide, greedy_maximize_terminates _ _ (by decide)⟩

/-! ### `gram_schmidt` and `transform_to_basis` -/

/-- `sum(np.dot(v, b) * b for b in basis)`, elementwise: the projection of
`v` onto the running basis. -/
def projSum {d : ℕ} (v : Vec d) (basis : List (Vec d)) : Vec d :=
  fun i => (basis.map (fun b => dot v b * b i)).sum

/-- The residual `w = v - sum(np.dot(v, b) * b for b in basis)`. -/
def residual {d : ℕ} (v : Vec d) (basis : List (Vec d)) : Vec d :=
  fun i => v i - projSum v basis i

/-- The normalised residual `w / np.linalg.norm(w)` appended to the basis. -/
def unitResidual {d : ℕ} (v : Vec d) (basis : List (Vec d)) : Vec d :=
  fun i => residual v basis i / nrm (residual v basis)

/-- One iteration of the `for v in vectors` loop of `gram_schmidt`. -/
def gsStep {d : ℕ} (basis : List (Vec d)) (v : Vec d) : List (Vec d) :=
  basis ++ [unitResidual v basis]

/-- `gram_schmidt(vectors)`: the Gram-Schmidt process, orthogonalising the
vectors in supply order against the previously built orthonormal basis. -/
def gram_schmidt {d : ℕ} (vectors : List (Vec d)) : List (Vec d) :=
  vectors.foldl gsStep []

/-- `transform_to_basis(vector, basis)`: the coordinates
`np.dot(vector, basis.T)`, and the difference between `vector` and the
back-projection `np.dot(projected, basis)`. -/
def transform_to_basis {d : ℕ} (vector : Vec d) (basis : List (Vec d)) :
    List ℝ × Vec d :=
  (basis.map (fun b => dot vector b),
   fun i => vector i -
     (List.zipWith (fun c b => c * b i) (basis.map (fun b => dot vector b)) basis).sum)

/-! Dot-product arithmetic over the elementwise embedding. -/

lemma dot_comm {d : ℕ} (u v : Vec d) : dot u v = dot v u := by
  unfold dot
  exact Finset.sum_congr rfl (fun i _ => mul_comm _ _)

lemma dot_self_nonneg {d : ℕ} (v : Vec d) : 0 ≤ dot v v :=
  Finset.sum_nonneg (fun i _ => mul_self_nonneg _)

lemma dot_self_pos {d : ℕ} {v : Vec d} (h : v ≠ fun _ => 0) : 0 < dot v v := by
  have hex : ∃ i, v i ≠ 0 := by
    by_contra hc
    push_neg at hc
    exact h (funext hc)
  obtain ⟨i, hi⟩ := hex
  exact Finset.sum_pos' (fun j _ => mul_self_nonneg _)
    ⟨i, Finset.mem_univ i, mul_self_pos.mpr hi⟩

lemma nrm_mul_self {d : ℕ} (v : Vec d) : nrm v * nrm v = dot v v :=
  Real.mul_self_sqrt (dot_self_nonneg v)

lemma nrm_pos {d : ℕ} {v : Vec d} (h : v ≠ fun _ => 0) : 0 < nrm v :=
  Real.sqrt_pos.mpr (dot_self_pos h)

lemma dot_fun_add {d : ℕ} (f g b : Vec d) :
    dot (fun i => f i + g i) b = dot f b + dot g b := by
  unfold dot
  rw [← Finset.sum_add_distrib]
  exact Finset.sum_congr rfl (fun i _ => by ring)

lemma dot_fun_smul {d : ℕ} (c : ℝ) (f b : Vec d) :
    dot (fun i => c * f i) b = c * dot f b := by
  unfold dot
  rw [Finset.mul_sum]
  exact Finset.sum_congr rfl (fun i _ => by ring)

lemma dot_projSum_left {d : ℕ} (v b : Vec d) (B : List (Vec d)) :
    dot (projSum v B) b = (B.map (fun bk => dot v bk * dot bk b)).sum := by
  induction B with
  | nil =>
    unfold dot projSum
    simp
  | cons b0 B ih =>
    have hfun : projSum v (b0 :: B) = fun i => dot v b0 * b0 i + projSum v B i := by
      funext i
      simp [projSum]
    rw [hfun, dot_fun_add, dot_fun_smul]
    rw [ih, List.map_cons, List.sum_cons]

lemma projSum_dot_zero {d : ℕ} (v b : Vec d) (B : List (Vec d))
    (hz : ∀ bk ∈ B, dot bk b = 0) : dot (projSum v B) b = 0 := by
  rw [dot_projSum_left]
  apply List.sum_eq_zero
  intro x hx
  rcases List.mem_map.mp hx with ⟨bk, hbk, rfl⟩
  rw [hz bk hbk, mul_zero]

lemma projSum_dot_orthonormal {d : ℕ} (v : Vec d) (B : List (Vec d))
    (hunit : ∀ b ∈ B, dot b b = 1)
    (hpair : List.Pairwise (fun b₁ b₂ => dot b₁ b₂ = 0) B) :
    ∀ b ∈ B, dot (projSum v B) b = dot v b := by
  induction B with
  | nil => simp
  | cons b0 B ih =>
    intro b hb
    have hsplit : dot (projSum v (b0 :: B)) b =
        dot v b0 * dot b0 b + dot (projSum v B) b := by
      rw [dot_projSum_left, List.map_cons, List.sum_cons, dot_projSum_left]
    rcases List.mem_cons.mp hb with hb | hb
    · subst hb
      rw [hsplit, hunit b (List.mem_cons_self _ _), mul_one]
      have hz : ∀ bk ∈ B, dot bk b = 0 := by
        intro bk hbk
        rw [dot_comm]
        exact (List.pairwise_cons.mp hpair).1 bk hbk
      rw [projSum_dot_zero v b B hz, add_zero]
    · have h0 : dot b0 b = 0 := (List.pairwise_cons.mp hpair).1 b hb
      rw [hsplit, h0, mul_zero, zero_add]
      exact ih (fun x hx => hunit x (List.mem_cons_of_mem _ hx))
        (List.pairwise_cons.mp hpair).2 b hb

lemma dot_residual_left {d : ℕ} (v b : Vec d) (B : List (Vec d)) :
    dot (residual v B) b = dot v b - dot (projSum v B) b := by
  unfold dot residual
  rw [← Finset.sum_sub_distrib]
  exact Finset.sum_congr rfl (fun i _ => by ring)

lemma residual_dot_basis {d : ℕ} (v : Vec d) (B : List (Vec d))
    (hunit : ∀ b ∈ B, dot b b = 1)
    (hpair : List.Pairwise (fun b₁ b₂ => dot b₁ b₂ = 0) B) :
    ∀ b ∈ B, dot (residual v B) b = 0 := by
  intro b hb
  rw [dot_residual_left, projSum_dot_orthonormal v B hunit hpair b hb, sub_self]

lemma dot_unitResidual_left {d : ℕ} (v b : Vec d) (B : List (Vec d)) :
    dot (unitResidual v B) b = dot (residual v B) b / nrm (residual v B) := by
  unfold dot unitResidual
  rw [Finset.sum_div]
  exact Finset.sum_congr rfl (fun i _ => by ring)

lemma unitResidual_dot_self {d : ℕ} (v : Vec d) (B : List (Vec d))
    (hw : residual v B ≠ fun _ => 0) :
    dot (unitResidual v B) (unitResidual v B) = 1 := by
  have hn : nrm (residual v B) ≠ 0 := ne_of_gt (nrm_pos hw)
  unfold dot unitResidual
  have heach : ∀ i : Fin d,
      residual v B i / nrm (residual v B) * (residual v B i / nrm (residual v B)) =
        residual v B i * residual v B i / (nrm (residual v B) * nrm (residual v B)) :=
    fun i => by ring
  rw [Finset.sum_congr rfl (fun i _ => heach i), ← Finset.sum_div, nrm_mul_self]
  exact div_self (ne_of_gt (dot_self_pos hw))

lemma projSum_mem_span {d : ℕ} (v : Vec d) (S : Set (Vec d)) :
    ∀ (B : List (Vec d)), (∀ b ∈ B, b ∈ Submodule.span ℝ S) →
      projSum v B ∈ Submodule.span ℝ S := by
  intro B
  induction B with
  | nil =>
    intro _
    have h0 : projSum v [] = (0 : Vec d) := rfl
    rw [h0]
    exact Submodule.zero_mem _
  | cons b B ih =>
    intro hB
    have hfun : projSum v (b :: B) = (dot v b) • b + projSum v B := by
      funext i
      show (List.map (fun bk => dot v bk * bk i) (b :: B)).sum = _
      rw [List.map_cons, List.sum_cons]
      rfl
    rw [hfun]
    exact Submodule.add_mem _
      (Submodule.smul_mem _ _ (hB b (List.mem_cons_self _ _)))
      (ih (fun x hx => hB x (List.mem_cons_of_mem _ hx)))

/-- The positional form of linear independence the Gram-Schmidt induction
consumes: no vector of the list lies in the span of the vectors before
it. -/
def StrongIndep {d : ℕ} (vs : List (Vec d)) : Prop :=
  ∀ (pre suf : List (Vec d)) (x : Vec d), vs = pre ++ x :: suf →
    x ∉ Submodule.span ℝ {y : Vec d | y ∈ pre}

lemma strongIndep_of_linearIndependent {d : ℕ} (vs : List (Vec d))
    (h : LinearIndependent ℝ (fun i : Fin vs.length => vs.get i)) :
    StrongIndep vs := by
  intro pre suf x hdecomp hmem
  subst hdecomp
  have hlen : pre.length < (pre ++ x :: suf).length := by simp
  have hx : (pre ++ x :: suf).get ⟨pre.length, hlen⟩ = x := by
    rw [List.get_eq_getElem, List.getElem_append_right (Nat.le_refl _)]
    simp
  have hnotmem : (⟨pre.length, hlen⟩ : Fin (pre ++ x :: suf).length) ∉
      {i : Fin (pre ++ x :: suf).length | (i : ℕ) < pre.length} := by simp
  have hns := h.not_mem_span_image hnotmem
  rw [hx] at hns
  apply hns
  refine Submodule.span_mono ?_ hmem
  intro y hy
  obtain ⟨j, hj, hjy⟩ := List.getElem_of_mem hy
  refine ⟨⟨j, by simp; omega⟩, by simpa using hj, ?_⟩
  simp only
  rw [List.get_eq_getElem, List.getElem_append_left hj]
  exact hjy

lemma strongIndep_dropLast {d : ℕ} {l : List (Vec d)} {v : Vec d}
    (h : StrongIndep (l ++ [v])) : StrongIndep l := by
  intro pre suf x hdecomp
  refine h pre (suf ++ [v]) x ?_
  rw [hdecomp]
  simp

lemma gram_schmidt_invariant {d : ℕ} (vs : List (Vec d)) (h : StrongIndep vs) :
    (∀ b ∈ gram_schmidt vs, b ∈ Submodule.span ℝ {x : Vec d | x ∈ vs}) ∧
    (∀ b ∈ gram_schmidt vs, dot b b = 1) ∧
    List.Pairwise (fun b₁ b₂ => dot b₁ b₂ = 0) (gram_schmidt vs) ∧
    (∀ v ∈ vs, projSum v (gram_schmidt vs) = v) := by
  induction vs using List.reverseRecOn with
  | nil =>
    refine ⟨?_, ?_, ?_, ?_⟩ <;> simp [gram_schmidt]
  | append_singleton l v ih =>
    obtain ⟨ihspan, ihunit, ihpair, ihrec⟩ := ih (strongIndep_dropLast h)
    set B := gram_schmidt l with hB
    have happ : gram_schmidt (l ++ [v]) = B ++ [unitResidual v B] := by
      unfold gram_schmidt
      rw [List.foldl_append]
      rfl
    have hvnot : v ∉ Submodule.span ℝ {y : Vec d | y ∈ l} := h l [] v rfl
    have hw : residual v B ≠ fun _ => 0 := by
      intro hc
      apply hvnot
      have hveq : v = projSum v B := by
        funext i
        have hi := congrFun hc i
        unfold residual at hi
        have : v i - projSum v B i = 0 := hi
        linarith
      rw [hveq]
      exact projSum_mem_span v _ B (fun b hb => ihspan b hb)
    have hn : nrm (residual v B) ≠ 0 := ne_of_gt (nrm_pos hw)
    have hwdot : ∀ b ∈ B, dot (residual v B) b = 0 :=
      residual_dot_basis v B ihunit ihpair
    have hudot : ∀ b ∈ B, dot (unitResidual v B) b = 0 := by
      intro b hb
      rw [dot_unitResidual_left, hwdot b hb, zero_div]
    have hsubset : {y : Vec d | y ∈ l} ⊆ {y : Vec d | y ∈ l ++ [v]} := by
      intro y hy
      simp only [Set.mem_setOf_eq, List.mem_append] at hy ⊢
      exact Or.inl hy
    have humem : unitResidual v B ∈ Submodule.span ℝ {x : Vec d | x ∈ l ++ [v]} := by
      have hu : unitResidual v B = (nrm (residual v B))⁻¹ • (v - projSum v B) := by
        funext i
        show residual v B i / nrm (residual v B) =
          (nrm (residual v B))⁻¹ * (v i - projSum v B i)
        unfold residual
        rw [div_eq_inv_mul]
      rw [hu]
      refine Submodule.smul_mem _ _ (Submodule.sub_mem _ ?_ ?_)
      · exact Submodule.subset_span (by simp)
      · exact projSum_mem_span v _ B
          (fun b hb => Submodule.span_mono hsubset (ihspan b hb))
    refine ⟨?_, ?_, ?_, ?_⟩
    · rw [happ]
      intro b hb
      rcases List.mem_append.mp hb with hb | hb
      · exact Submodule.span_mono hsubset (ihspan b hb)
      · rw [List.mem_singleton.mp hb]
        exact humem
    · rw [happ]
      intro b hb
      rcases List.mem_append.mp hb with hb | hb
      · exact ihunit b hb
      · rw [List.mem_singleton.mp hb]
        exact unitResidual_dot_self v B hw
    · rw [happ, List.pairwise_append]
      refine ⟨ihpair, List.pairwise_singleton _ _, ?_⟩
      intro b hb u' hu'
      rw [List.mem_singleton.mp hu', dot_comm]
      exact hudot b hb
    · rw [happ]
      intro x hx
      have hsplit : ∀ (y : Vec d), projSum y (B ++ [unitResidual v B]) =
          fun i => projSum y B i + dot y (unitResidual v B) * unitResidual v B i := by
        intro y
        funext i
        show (List.map (fun bk => dot y bk * bk i) (B ++ [unitResidual v B])).sum = _
        rw [List.map_append, List.sum_append]
        simp [projSum]
      rcases List.mem_append.mp hx with hx | hx
      · have hrecx := ihrec x hx
        have hxu : dot x (unitResidual v B) = 0 := by
          have hcast : dot x (unitResidual v B) =
              dot (projSum x B) (unitResidual v B) := by rw [hrecx]
          rw [hcast]
          exact projSum_dot_zero x (unitResidual v B) B
            (fun bk hbk => by rw [dot_comm]; exact hudot bk hbk)
        rw [hsplit x]
        funext i
        rw [hxu, zero_mul, add_zero]
        exact congrFun hrecx i
      · have hxv : x = v := List.mem_singleton.mp hx
        subst hxv
        rw [hsplit x]
        have hvu : dot x (unitResidual x B) = nrm (residual x B) := by
          have hdecv : x = fun i => residual x B i + projSum x B i := by
            funext i
            unfold residual
            ring
          have hcast : dot x (unitResidual x B) =
              dot (fun i => residual x B i + projSum x B i) (unitResidual x B) := by
            rw [← hdecv]
          rw [hcast, dot_fun_add]
          have h1 : dot (residual x B) (unitResidual x B) = nrm (residual x B) := by
            rw [dot_comm, dot_unitResidual_left, ← nrm_mul_self]
            exact mul_div_cancel_left₀ _ hn
          have h2 : dot (projSum x B) (unitResidual x B) = 0 :=
            projSum_dot_zero x (unitResidual x B) B
              (fun bk hbk => by rw [dot_comm]; exact hudot bk hbk)
          rw [h1, h2, add_zero]
        rw [hvu]
        funext i
        show projSum x B i + nrm (residual x B) * (residual x B i / nrm (residual x B)) = x i
        rw [mul_div_cancel₀ _ hn]
        unfold residual
        ring

/-- C7: Gram-Schmidt round trip: for every linearly independent list of
input vectors, projecting each original vector onto the basis produced by
`gram_schmidt` and back via `transform_to_basis` leaves a residual
difference vector that is exactly zero. -/
theorem gram_schmidt_roundtrip {d : ℕ} (vectors : List (Vec d))
    (h : LinearIndependent ℝ (fun i : Fin vectors.length => vectors.get i)) :
    ∀ v ∈ vectors, (transform_to_basis v (gram_schmidt vectors)).2 = fun _ => 0 := by
  have hinv := gram_schmidt_invariant vectors (strongIndep_of_linearIndependent vectors h)
  intro v hv
  have hrec := hinv.2.2.2 v hv
  unfold transform_to_basis
  funext i
  have hzip : ∀ (B : List (Vec d)),
      (List.zipWith (fun c b => c * b i) (B.map (fun b => dot v b)) B).sum =
        (B.map (fun b => dot v b * b i)).sum := by
    intro B
    induction B with
    | nil => rfl
    | cons b0 B ih =>
      rw [List.map_cons, List.zipWith_cons_cons, List.sum_cons, List.map_cons,
        List.sum_cons, ih]
  show v i - (List.zipWith (fun c b => c * b i)
      ((gram_schmidt vectors).map (fun b => dot v b)) (gram_schmidt vectors)).sum = 0
  rw [hzip]
  have hpi := congrFun hrec i
  unfold projSum at hpi
  rw [hpi]
  ring

/-- Instantiation of the C7 theorem at a concrete input: the singleton
list holding the constant-one vector in dimension 1. -/
theorem gram_schmidt_roundtrip_witness :
    LinearIndependent ℝ (fun i : Fin 1 => ([fun _ => (1 : ℝ)] : List (Vec 1)).get i) ∧
    (transform_to_basis (fun _ => (1 : ℝ))
      (gram_schmidt ([fun _ => (1 : ℝ)] : List (Vec 1)))).2 = fun _ => 0 := by
  have hne : (fun i : Fin 1 => ([fun _ => (1 : ℝ)] : List (Vec 1)).get i) default ≠ 0 := by
    intro hc
    exact one_ne_zero (congrFun hc 0)
  have hli : LinearIndependent ℝ
      (fun i : Fin 1 => ([fun _ => (1 : ℝ)] : List (Vec 1)).get i) :=
    linearIndependent_unique _ hne
  refine ⟨hli, gram_schmidt_roundtrip ([fun _ => (1 : ℝ)] : List (Vec 1)) ?_ _
    (List.mem_singleton.mpr rfl)⟩
  show LinearIndependent ℝ (fun i : Fin 1 => ([fun _ => (1 : ℝ)] : List (Vec 1)).get i)
  exact hli

end Keraon
